import Mathlib

/-!
Verification of the rust-bpe core (src/rust_bpe/src/lib.rs).

The Rust code is shallowly embedded: `HashMap` fields become association
lists (`List (key × value)`) with `lookupA`/`insertA` mirroring
`HashMap::get`/`HashMap::insert`; Rust `String` becomes `List Char`;
`u32`/`usize` become `Nat` (no execution considered here approaches the
2^32 wrap); fallible code (panics via `expect`/`unwrap`) returns
`Option`/`Except`.  Recursion that the Rust runs on a heap-allocated DAG
(`decode_single`) takes an explicit fuel argument; sufficiency of fuel is
proved for well-formed vocabularies.
-/

set_option autoImplicit false

namespace BPE

/-- Rust `String` / `&str`, viewed as its character sequence. -/
abbrev Str := List Char

/-- `pub type TknId = u32;` -/
abbrev TknId := Nat

/-- `pub type TknDiagram = (TknId, TknId);` -/
abbrev TknDiagram := TknId × TknId

/-- The `Token` enum: a `Unit` character or a `Composition` of two token ids. -/
inductive Token where
  | Unit : Char → Token
  | Composition : TknId → TknId → Token
deriving DecidableEq, Repr

/-- `HashMap::get` on an association list: first binding of the key wins. -/
def lookupA {α β : Type} [DecidableEq α] : List (α × β) → α → Option β
  | [], _ => none
  | (k, b) :: rest, k' => if k = k' then some b else lookupA rest k'

/-- `HashMap::insert` on an association list: replace the first binding of
the key, or append a fresh binding at the end. -/
def insertA {α β : Type} [DecidableEq α] : List (α × β) → α → β → List (α × β)
  | [], k, b => [(k, b)]
  | (k', b') :: rest, k, b =>
      if k' = k then (k, b) :: rest else (k', b') :: insertA rest k b

/-- The `Vocabulary` struct: id → token store, token → id reverse map,
the lazily built decode cache, and the size counter. -/
structure Vocabulary where
  tkns : List (TknId × Token)
  ids : List (Token × TknId)
  id_to_string : Option (List (TknId × Str))
  size : Nat
deriving DecidableEq, Repr

/-- `Vocabulary::new`. -/
def Vocabulary.new : Vocabulary := ⟨[], [], none, 0⟩

/-- `Vocabulary::len`. -/
def Vocabulary.len (v : Vocabulary) : Nat := v.size

/-- `Vocabulary::push`: `ids.entry(tkn).or_insert_with(|| { size += 1; next_id })`
followed by `tkns.insert(*id, tkn)`; returns the id together with the
updated vocabulary (the Rust mutates `self`). -/
def push (v : Vocabulary) (tkn : Token) : TknId × Vocabulary :=
  let next_id := v.size
  match lookupA v.ids tkn with
  | some id => (id, { v with tkns := insertA v.tkns id tkn })
  | none =>
      (next_id,
       { v with
           ids := insertA v.ids tkn next_id
           tkns := insertA v.tkns next_id tkn
           size := v.size + 1 })

/-- Failure conditions of the embedded `decode_single`:
`unknownSymbol` models the Rust panic `expect("Token ID should be valid.")`;
`outOfFuel` is an artifact of the explicit fuel (the Rust recursion has no
bound; fuel `v.size` is proved sufficient for well-formed vocabularies). -/
inductive DecodeErr where
  | unknownSymbol : DecodeErr
  | outOfFuel : DecodeErr
deriving DecidableEq, Repr

/-- `Vocabulary::decode_single`: expand one id to text, recursing through
`Composition` tokens (left then right).  The Rust appends to a `&mut String`;
here the produced text is returned. -/
def decode_single (v : Vocabulary) : Nat → TknId → Except DecodeErr Str
  | 0, _ => .error .outOfFuel
  | fuel + 1, id =>
      match lookupA v.tkns id with
      | none => .error .unknownSymbol
      | some (Token.Unit ch) => .ok [ch]
      | some (Token.Composition left right) =>
          match decode_single v fuel left with
          | .error e => .error e
          | .ok sl =>
              match decode_single v fuel right with
              | .error e => .error e
              | .ok sr => .ok (sl ++ sr)

/-- The cache build inside `Vocabulary::decode`:
`tkns.iter().map(|(id, _)| (id, decode_single(id)))`, here over the listed
entries of `tkns` (the `HashMap` iteration order is unspecified in Rust; the
cache is keyed by id and `decode_single` is a function of the id alone, so
the resulting map does not depend on that order). -/
def buildCache (v : Vocabulary) (fuel : Nat) : List (TknId × Token) → Except DecodeErr (List (TknId × Str))
  | [] => .ok []
  | (id, _) :: rest =>
      match decode_single v fuel id with
      | .error e => .error e
      | .ok s =>
          match buildCache v fuel rest with
          | .error e => .error e
          | .ok cache => .ok ((id, s) :: cache)

/-- The output loop of `Vocabulary::decode`: append the cached text of each
id, silently skipping ids absent from the cache. -/
def cacheOutput (cache : List (TknId × Str)) : List TknId → Str
  | [] => []
  | id :: rest =>
      (match lookupA cache id with
       | some s => s
       | none => []) ++ cacheOutput cache rest

/-- `Vocabulary::decode`: build the whole-vocabulary cache on first use,
then append the cached text of each id in sequence, skipping unknown ids.
Returns the updated vocabulary (the Rust mutates `self.id_to_string`). -/
def decode (v : Vocabulary) (fuel : Nat) (ids : List TknId) : Except DecodeErr (Vocabulary × Str) :=
  match v.id_to_string with
  | some cache => .ok (v, cacheOutput cache ids)
  | none =>
      match buildCache v fuel v.tkns with
      | .error e => .error e
      | .ok cache => .ok ({ v with id_to_string := some cache }, cacheOutput cache ids)

/-- `Vocabulary::preinitialize_vocabulary` (name shortened): push every
character of the input as a `Unit` token, collecting the returned ids. -/
def preinit_vocabulary (v : Vocabulary) : Str → List TknId × Vocabulary
  | [] => ([], v)
  | c :: rest =>
      let p := push v (Token.Unit c)
      let q := preinit_vocabulary p.2 rest
      (p.1 :: q.1, q.2)

/-- `Vocabulary::new_id`: if both ids of the digram are registered, push the
`Composition` token and return its id; otherwise `None`. -/
def new_id (v : Vocabulary) (diagram : TknDiagram) : Option (TknId × Vocabulary) :=
  match lookupA v.tkns diagram.1, lookupA v.tkns diagram.2 with
  | some _, some _ => some (push v (Token.Composition diagram.1 diagram.2))
  | _, _ => none

/-- One step of `digram_count`'s map update:
`entry(pair).and_modify(|c| *c += 1).or_insert(1)`.  A fresh key is appended
at the end, so the listed key order is first-occurrence order. -/
def bumpCount : List (TknDiagram × Nat) → TknDiagram → List (TknDiagram × Nat)
  | [], k => [(k, 1)]
  | (k', c) :: rest, k =>
      if k' = k then (k', c + 1) :: rest else (k', c) :: bumpCount rest k

/-- `digram_count`: count every adjacent id pair (`text.windows(2)`),
accumulating into the given map. -/
def digram_count : List TknId → List (TknDiagram × Nat) → List (TknDiagram × Nat)
  | a :: b :: rest, m => digram_count (b :: rest) (bumpCount m (a, b))
  | _, m => m

/-- Stable insertion (by count, ascending) used to model
`top_n.sort_by_key(|&(_, count)| count)`: an element is placed before the
first existing element whose count is not smaller, so elements with equal
counts keep their relative order (Rust's sort is stable). -/
def insertSorted (x : TknDiagram × Nat) : List (TknDiagram × Nat) → List (TknDiagram × Nat)
  | [] => [x]
  | y :: ys => if y.2 < x.2 then y :: insertSorted x ys else x :: y :: ys

/-- Stable ascending-by-count sort modelling `sort_by_key` (any stable sort
with the same key produces the same list). -/
def sortByCount : List (TknDiagram × Nat) → List (TknDiagram × Nat)
  | [] => []
  | x :: xs => insertSorted x (sortByCount xs)

/-- `top_n_digrams`: keep entries with `count > min`, sort ascending by
count (stably), reverse to descending, truncate to `n`. -/
def top_n_digrams (counts : List (TknDiagram × Nat)) (n : Nat) (min : Nat) :
    List (TknDiagram × Nat) :=
  ((sortByCount (counts.filter (fun p => min < p.2))).reverse).take n

/-- The rewrite scan inside `learn`: one left-to-right pass; whenever the
next two elements equal the digram, emit the new id and advance by two,
otherwise emit the current element and advance by one
(`text.get(i..i + 2)` is `None` at the final element, which is emitted
unchanged). -/
def rewriteScan (d : TknDiagram) (nid : TknId) : List TknId → List TknId
  | a :: b :: rest =>
      if (a, b) = d then nid :: rewriteScan d nid rest
      else a :: rewriteScan d nid (b :: rest)
  | [a] => [a]
  | [] => []

/-- The inner `while let Some(digram) = top_digrams.pop()` loop of `learn`,
after reversing the selected list (popping from the back of a `Vec` visits
it back-to-front).  Each digram is promoted via `new_id` (whose result the
Rust `unwrap`s: `none` here models that panic), the sequence is rewritten,
and the promotion counter `cur_i` is incremented. -/
def processDigramsRev (v : Vocabulary) (text : List TknId) (cur_i : Nat) :
    List (TknDiagram × Nat) → Option (Vocabulary × List TknId × Nat)
  | [] => some (v, text, cur_i)
  | d :: rest =>
      match new_id v d.1 with
      | none => none
      | some (nid, v') =>
          processDigramsRev v' (rewriteScan d.1 nid text) (cur_i + 1) rest

/-- The outer `for _ in 0..merges` loop of `learn`: `rounds` is the number
of remaining loop iterations (initially `merges`).  Each round checks
`cur_i == merges`, counts digrams into a fresh map (the Rust reuses a map
that is cleared at the end of every round), selects the top digrams,
terminates if the selection is empty, and otherwise processes the selected
digrams back-to-front. -/
def learnLoop (merges replacements cutoff : Nat) :
    Nat → Vocabulary → List TknId → Nat → Option (Vocabulary × List TknId × Nat)
  | 0, v, text, cur_i => some (v, text, cur_i)
  | rounds + 1, v, text, cur_i =>
      if cur_i = merges then some (v, text, cur_i)
      else
        let top_digrams := top_n_digrams (digram_count text []) replacements cutoff
        if top_digrams = [] then some (v, text, cur_i)
        else
          match processDigramsRev v text cur_i top_digrams.reverse with
          | none => none
          | some (v', text', cur_i') => learnLoop merges replacements cutoff rounds v' text' cur_i'

/-- `Vocabulary::learn`.  The Rust returns only the final sequence and
mutates `self`; the embedding also returns the final vocabulary and the
final value of the promotion counter `cur_i` (a local in the Rust), and
`none` models the `unwrap` panic on a failed `new_id`. -/
def learn (v : Vocabulary) (data : Str) (merges replacements cutoff : Nat) :
    Option (Vocabulary × List TknId × Nat) :=
  let p := preinit_vocabulary v data
  learnLoop merges replacements cutoff merges p.2 p.1 0

/-- A sequence of `push` (= the spec's `register`) calls. -/
def pushAll (v : Vocabulary) : List Token → Vocabulary
  | [] => v
  | t :: ts => pushAll (push v t).2 ts

/-- The vocabulary produced by a sequence of `register` calls from empty. -/
def vocabOf (ts : List Token) : Vocabulary := pushAll Vocabulary.new ts

/-- Validity of a token's operands relative to a vocabulary: exactly the
guard that `new_id` checks before pushing a `Composition`. -/
def compOk (v : Vocabulary) : Token → Prop
  | Token.Unit _ => True
  | Token.Composition l r => (lookupA v.tkns l).isSome ∧ (lookupA v.tkns r).isSome

instance (v : Vocabulary) (t : Token) : Decidable (compOk v t) :=
  match t with
  | Token.Unit _ => isTrue trivial
  | Token.Composition _ _ => inferInstanceAs (Decidable (_ ∧ _))

/-- Acyclicity data carried by one `tkns` entry: a `Composition`'s operands
are strictly smaller than its own id and are themselves registered. -/
def tokenOk (v : Vocabulary) (id : TknId) : Token → Prop
  | Token.Unit _ => True
  | Token.Composition l r =>
      l < id ∧ r < id ∧ (lookupA v.tkns l).isSome ∧ (lookupA v.tkns r).isSome

instance (v : Vocabulary) (id : TknId) (t : Token) : Decidable (tokenOk v id t) :=
  match t with
  | Token.Unit _ => isTrue trivial
  | Token.Composition _ _ => inferInstanceAs (Decidable (_ ∧ _ ∧ _ ∧ _))

/-- Well-formedness of a vocabulary: every stored id is below `size`, the
reverse map agrees with the store, and every stored `Composition` is
acyclic with registered operands. -/
def WF (v : Vocabulary) : Prop :=
  (∀ p ∈ v.tkns, p.1 < v.size) ∧
  (∀ q ∈ v.ids, lookupA v.tkns q.2 = some q.1) ∧
  (∀ p ∈ v.tkns, tokenOk v p.1 p.2)

instance (v : Vocabulary) : Decidable (WF v) :=
  inferInstanceAs (Decidable (_ ∧ _ ∧ _))

/-- Concatenated expansion of a whole sequence of ids: the text that the
sequence stands for. -/
def textExpand (v : Vocabulary) (fuel : Nat) : List TknId → Option Str
  | [] => some []
  | id :: rest =>
      match decode_single v fuel id with
      | .error _ => none
      | .ok s =>
          match textExpand v fuel rest with
          | none => none
          | some srest => some (s ++ srest)

/-- All ids of a sequence are registered in the vocabulary. -/
def AllReg (v : Vocabulary) (text : List TknId) : Prop :=
  ∀ id ∈ text, (lookupA v.tkns id).isSome

/-- The adjacent id pairs of a sequence, in order (`text.windows(2)`). -/
def adjPairs : List TknId → List TknDiagram
  | a :: b :: rest => (a, b) :: adjPairs (b :: rest)
  | _ => []

/-- The invariant maintained by arbitrary `register` (= `push`) calls:
stored ids are below `size`, the reverse map agrees with the store, and
every id below `size` is registered (dense ids). -/
def RegInv (v : Vocabulary) : Prop :=
  (∀ p ∈ v.tkns, p.1 < v.size) ∧
  (∀ q ∈ v.ids, lookupA v.tkns q.2 = some q.1) ∧
  (∀ id : TknId, id < v.size → (lookupA v.tkns id).isSome)

/-- Vocabulary states reachable by the exposed operations, with `push`
restricted to leaf (`Unit`) tokens — composite symbols are created only
through `new_id` (the spec's `try_compose`), `preinit_vocabulary` (the
spec's `seed`), and `learn`. -/
inductive Reachable : Vocabulary → Prop where
  | base : Reachable Vocabulary.new
  | pushUnit {v : Vocabulary} (c : Char) :
      Reachable v → Reachable (push v (Token.Unit c)).2
  | compose {v : Vocabulary} {d : TknDiagram} {nid : TknId} {v' : Vocabulary} :
      Reachable v → new_id v d = some (nid, v') → Reachable v'
  | seed {v : Vocabulary} (data : Str) :
      Reachable v → Reachable (preinit_vocabulary v data).2
  | learnStep {v : Vocabulary} {data : Str} {m r c : Nat} {v' : Vocabulary}
      {text : List TknId} {n : Nat} :
      Reachable v → learn v data m r c = some (v', text, n) → Reachable v'
  | decodeStep {v : Vocabulary} {fuel : Nat} {ids : List TknId} {v' : Vocabulary} {s : Str} :
      Reachable v → decode v fuel ids = .ok (v', s) → Reachable v'

/-- Reference output for bulk decode, following the spec's words: each id
contributes its full single-id expansion when registered and nothing
otherwise (the silent skip).  Used to compare `decode`'s cache-based
output against the strict `decode_single`. -/
def specSkipOutput (v : Vocabulary) : List TknId → Str
  | [] => []
  | id :: rest =>
      (match decode_single v v.size id with
       | .ok s => s
       | .error _ => []) ++ specSkipOutput v rest

/-- The vocabulary seeded with the text "ab" (used as a concrete instance
in witnesses). -/
def vocabAB : Vocabulary := (preinit_vocabulary Vocabulary.new ['a', 'b']).2

/-- `vocabAB` after composing the digram `(0, 1)` via `new_id`. -/
def vocabABC : Vocabulary :=
  ⟨[(0, Token.Unit 'a'), (1, Token.Unit 'b'), (2, Token.Composition 0 1)],
   [(Token.Unit 'a', 0), (Token.Unit 'b', 1), (Token.Composition 0 1, 2)],
   none, 3⟩

/-- A vocabulary holding three tokens whose decode cache was built when
only id 0 existed: the concrete stale-cache scenario. -/
def vocabCached : Vocabulary :=
  ⟨[(0, Token.Unit 'a'), (1, Token.Unit 'b'), (2, Token.Composition 0 1)],
   [(Token.Unit 'a', 0), (Token.Unit 'b', 1), (Token.Composition 0 1, 2)],
   some [(0, ['a'])], 3⟩

section AssocLemmas

variable {α β : Type} [DecidableEq α]

theorem lookupA_insertA (m : List (α × β)) (k : α) (b : β) (j : α) :
    lookupA (insertA m k b) j = if k = j then some b else lookupA m j := by
  induction m with
  | nil =>
      by_cases hj : k = j <;> simp [insertA, lookupA, hj]
  | cons p rest ih =>
      obtain ⟨k', b'⟩ := p
      by_cases hk : k' = k
      · subst hk
        by_cases hj : k' = j <;> simp [insertA, lookupA, hj]
      · by_cases hj : k' = j
        · subst hj
          have hkj : ¬ k = k' := fun h => hk h.symm
          simp [insertA, if_neg hk, lookupA, if_neg hkj]
        · simp [insertA, if_neg hk, lookupA, if_neg hj, ih]

theorem lookupA_mem {m : List (α × β)} {k : α} {b : β}
    (h : lookupA m k = some b) : (k, b) ∈ m := by
  induction m with
  | nil => simp [lookupA] at h
  | cons p rest ih =>
      obtain ⟨k', b'⟩ := p
      by_cases hk : k' = k
      · subst hk
        simp [lookupA] at h
        subst h
        exact List.mem_cons_self _ _
      · simp only [lookupA, if_neg hk] at h
        exact List.mem_cons_of_mem _ (ih h)

theorem mem_insertA {m : List (α × β)} {k : α} {b : β} {p : α × β}
    (h : p ∈ insertA m k b) : p = (k, b) ∨ p ∈ m := by
  induction m with
  | nil => simpa [insertA] using h
  | cons q rest ih =>
      obtain ⟨k', b'⟩ := q
      by_cases hk : k' = k
      · subst hk
        simp only [insertA, if_pos rfl] at h
        rcases List.mem_cons.mp h with h | h
        · exact Or.inl h
        · exact Or.inr (List.mem_cons_of_mem _ h)
      · simp only [insertA, if_neg hk] at h
        rcases List.mem_cons.mp h with h | h
        · exact Or.inr (List.mem_cons.mpr (Or.inl h))
        · rcases ih h with h | h
          · exact Or.inl h
          · exact Or.inr (List.mem_cons_of_mem _ h)

theorem lookupA_isSome_insertA {m : List (α × β)} {j : α} (k : α) (b : β)
    (h : (lookupA m j).isSome) : (lookupA (insertA m k b) j).isSome := by
  rw [lookupA_insertA]
  by_cases hk : k = j <;> simp [hk, h]

end AssocLemmas

section PushLemmas

/-- The deduplicating branch of `push`: the token is already in `ids`. -/
theorem push_found {v : Vocabulary} {t : Token} {id : TknId}
    (h : lookupA v.ids t = some id) :
    push v t = (id, { v with tkns := insertA v.tkns id t }) := by
  unfold push
  rw [h]

/-- The fresh branch of `push`: the token is new, the next id is assigned. -/
theorem push_fresh_eq {v : Vocabulary} {t : Token}
    (h : lookupA v.ids t = none) :
    push v t = (v.size,
      { v with
          ids := insertA v.ids t v.size
          tkns := insertA v.tkns v.size t
          size := v.size + 1 }) := by
  unfold push
  rw [h]

/-- `push` leaves the decode cache untouched. -/
theorem push_id_to_string (v : Vocabulary) (t : Token) :
    (push v t).2.id_to_string = v.id_to_string := by
  cases h : lookupA v.ids t with
  | some id => rw [push_found h]
  | none => rw [push_fresh_eq h]

/-- `push` never shrinks the size counter. -/
theorem push_size_mono (v : Vocabulary) (t : Token) :
    v.size ≤ (push v t).2.size := by
  cases h : lookupA v.ids t with
  | some id => rw [push_found h]
  | none =>
      rw [push_fresh_eq h]
      exact Nat.le_succ _

/-- The id returned by `push` is bound to the pushed token afterwards
(`tkns.insert(*id, tkn)` runs in both branches). -/
theorem push_lookup_self (v : Vocabulary) (t : Token) :
    lookupA (push v t).2.tkns (push v t).1 = some t := by
  cases h : lookupA v.ids t with
  | some id =>
      rw [push_found h]
      simp [lookupA_insertA]
  | none =>
      rw [push_fresh_eq h]
      simp [lookupA_insertA]

/-- `push` never unregisters an id. -/
theorem push_isSome_mono (v : Vocabulary) (t : Token) {j : TknId}
    (h : (lookupA v.tkns j).isSome) : (lookupA (push v t).2.tkns j).isSome := by
  cases hid : lookupA v.ids t with
  | some id =>
      rw [push_found hid]
      exact lookupA_isSome_insertA _ _ h
  | none =>
      rw [push_fresh_eq hid]
      exact lookupA_isSome_insertA _ _ h

/-- After a `push`, the reverse map finds the pushed token at the returned
id. -/
theorem push_ids_self (v : Vocabulary) (t : Token) :
    lookupA (push v t).2.ids t = some (push v t).1 := by
  cases h : lookupA v.ids t with
  | some id =>
      rw [push_found h]
      exact h
  | none =>
      rw [push_fresh_eq h]
      simp [lookupA_insertA]

/-- Pushing the same token twice returns the same id and does not grow the
vocabulary the second time. -/
theorem push_push_same (v : Vocabulary) (t : Token) :
    (push (push v t).2 t).1 = (push v t).1 ∧
    (push (push v t).2 t).2.size = (push v t).2.size := by
  rw [push_found (push_ids_self v t)]
  exact ⟨rfl, rfl⟩

/-- A fresh token is assigned the current size, and the size increments. -/
theorem push_fresh (v : Vocabulary) (t : Token) (h : lookupA v.ids t = none) :
    (push v t).1 = v.size ∧ (push v t).2.size = v.size + 1 := by
  rw [push_fresh_eq h]
  exact ⟨rfl, rfl⟩

/-- Under well-formedness, `push` preserves every existing binding of the
id → token store exactly. -/
theorem push_lookup_preserved {v : Vocabulary} (hwf : WF v) (t : Token)
    {j : TknId} {tj : Token} (h : lookupA v.tkns j = some tj) :
    lookupA (push v t).2.tkns j = some tj := by
  cases hid : lookupA v.ids t with
  | some id =>
      have hco : lookupA v.tkns id = some t := hwf.2.1 _ (lookupA_mem hid)
      rw [push_found hid]
      simp only [lookupA_insertA]
      by_cases hj : id = j
      · subst hj
        rw [hco] at h
        simp [h]
      · simp [if_neg hj, h]
  | none =>
      rw [push_fresh_eq hid]
      simp only [lookupA_insertA]
      have hlt : j < v.size := hwf.1 _ (lookupA_mem h)
      have hj : ¬ v.size = j := Nat.ne_of_gt hlt
      simp [if_neg hj, h]

/-- `tokenOk` only reads registered-ness of the operands, so it transports
along any vocabulary change that never unregisters ids. -/
theorem tokenOk_mono {v v' : Vocabulary} {id : TknId} {t : Token}
    (hmono : ∀ j, (lookupA v.tkns j).isSome → (lookupA v'.tkns j).isSome)
    (h : tokenOk v id t) : tokenOk v' id t := by
  cases t with
  | Unit c => trivial
  | Composition l r =>
      obtain ⟨h1, h2, h3, h4⟩ := h
      exact ⟨h1, h2, hmono _ h3, hmono _ h4⟩

/-- `push` preserves well-formedness provided a pushed `Composition` has
registered operands (exactly what `new_id` checks). -/
theorem push_WF {v : Vocabulary} (hwf : WF v) {t : Token} (hok : compOk v t) :
    WF (push v t).2 := by
  have hmono : ∀ j, (lookupA v.tkns j).isSome → (lookupA (push v t).2.tkns j).isSome :=
    fun j h => push_isSome_mono v t h
  cases hid : lookupA v.ids t with
  | some id =>
      have hco : lookupA v.tkns id = some t := hwf.2.1 _ (lookupA_mem hid)
      have hmono' : ∀ j, (lookupA v.tkns j).isSome →
          (lookupA (push v t).2.tkns j).isSome := hmono
      rw [push_found hid] at hmono' ⊢
      refine ⟨?_, ?_, ?_⟩
      · intro p hp
        rcases mem_insertA hp with hh | hh
        · subst hh
          have hlt : id < v.size := hwf.1 _ (lookupA_mem hco)
          exact hlt
        · exact hwf.1 _ hh
      · intro q hq
        have hq2 : lookupA v.tkns q.2 = some q.1 := hwf.2.1 _ hq
        simp only [lookupA_insertA]
        by_cases hj : id = q.2
        · subst hj
          rw [hco] at hq2
          simp [hq2]
        · simp [if_neg hj, hq2]
      · intro p hp
        rcases mem_insertA hp with hh | hh
        · subst hh
          exact tokenOk_mono hmono' (hwf.2.2 _ (lookupA_mem hco))
        · exact tokenOk_mono hmono' (hwf.2.2 _ hh)
  | none =>
      have hmono' : ∀ j, (lookupA v.tkns j).isSome →
          (lookupA (push v t).2.tkns j).isSome := hmono
      rw [push_fresh_eq hid] at hmono' ⊢
      refine ⟨?_, ?_, ?_⟩
      · intro p hp
        rcases mem_insertA hp with hh | hh
        · subst hh
          exact Nat.lt_succ_self _
        · have hlt : p.1 < v.size := hwf.1 _ hh
          exact Nat.lt_succ_of_lt hlt
      · intro q hq
        simp only [lookupA_insertA]
        rcases mem_insertA hq with hh | hh
        · subst hh
          simp
        · have hq2 : lookupA v.tkns q.2 = some q.1 := hwf.2.1 _ hh
          have hlt : q.2 < v.size := hwf.1 _ (lookupA_mem hq2)
          have hne : ¬ v.size = q.2 := Nat.ne_of_gt hlt
          simp [if_neg hne, hq2]
      · intro p hp
        rcases mem_insertA hp with hh | hh
        · subst hh
          cases t with
          | Unit c => trivial
          | Composition l r =>
              obtain ⟨h3, h4⟩ := hok
              obtain ⟨tl, hl⟩ := Option.isSome_iff_exists.mp h3
              obtain ⟨tr, hr⟩ := Option.isSome_iff_exists.mp h4
              refine ⟨hwf.1 _ (lookupA_mem hl), hwf.1 _ (lookupA_mem hr), ?_, ?_⟩
              · exact lookupA_isSome_insertA _ _ h3
              · exact lookupA_isSome_insertA _ _ h4
        · exact tokenOk_mono hmono' (hwf.2.2 _ hh)

/-- The empty vocabulary is well-formed. -/
theorem WF_new : WF Vocabulary.new := by
  refine ⟨?_, ?_, ?_⟩ <;> intro p hp <;> simp [Vocabulary.new] at hp

end PushLemmas

section DecodeSingleLemmas

/-- Unfolding `decode_single` at an unregistered id. -/
theorem decode_single_succ_none {v : Vocabulary} {fuel : Nat} {id : TknId}
    (h : lookupA v.tkns id = none) :
    decode_single v (fuel + 1) id = .error .unknownSymbol := by
  unfold decode_single
  rw [h]

/-- Unfolding `decode_single` at a `Unit` token. -/
theorem decode_single_succ_unit {v : Vocabulary} {fuel : Nat} {id : TknId} {c : Char}
    (h : lookupA v.tkns id = some (Token.Unit c)) :
    decode_single v (fuel + 1) id = .ok [c] := by
  unfold decode_single
  rw [h]

/-- Successful unfolding of `decode_single` at a `Composition` token. -/
theorem decode_single_comp_ok {v : Vocabulary} {fuel : Nat} {id l r : TknId} {sl sr : Str}
    (h : lookupA v.tkns id = some (Token.Composition l r))
    (hsl : decode_single v fuel l = .ok sl) (hsr : decode_single v fuel r = .ok sr) :
    decode_single v (fuel + 1) id = .ok (sl ++ sr) := by
  unfold decode_single
  simp only [h, hsl, hsr]

/-- Inversion of a successful `decode_single` at a `Composition` token. -/
theorem decode_single_comp_inv {v : Vocabulary} {fuel : Nat} {id l r : TknId} {s : Str}
    (hl : lookupA v.tkns id = some (Token.Composition l r))
    (h : decode_single v (fuel + 1) id = .ok s) :
    ∃ sl sr, decode_single v fuel l = .ok sl ∧ decode_single v fuel r = .ok sr ∧
      s = sl ++ sr := by
  unfold decode_single at h
  simp only [hl] at h
  cases hsl : decode_single v fuel l with
  | error e =>
      simp only [hsl] at h
      exact Except.noConfusion h
  | ok sl =>
      simp only [hsl] at h
      cases hsr : decode_single v fuel r with
      | error e =>
          simp only [hsr] at h
          exact Except.noConfusion h
      | ok sr =>
          simp only [hsr, Except.ok.injEq] at h
          exact ⟨sl, sr, rfl, rfl, h.symm⟩

/-- More fuel never changes a successful expansion. -/
theorem decode_single_mono {v : Vocabulary} {fuel fuel' : Nat} {id : TknId} {s : Str}
    (hle : fuel ≤ fuel') (h : decode_single v fuel id = .ok s) :
    decode_single v fuel' id = .ok s := by
  induction fuel generalizing fuel' id s with
  | zero => simp [decode_single] at h
  | succ fuel ih =>
      cases fuel' with
      | zero => exact absurd hle (by omega)
      | succ fuel'' =>
          have hle' : fuel ≤ fuel'' := Nat.succ_le_succ_iff.mp hle
          cases hl : lookupA v.tkns id with
          | none =>
              rw [decode_single_succ_none hl] at h
              exact Except.noConfusion h
          | some t =>
              cases t with
              | Unit c =>
                  rw [decode_single_succ_unit hl] at h
                  rw [decode_single_succ_unit hl]
                  exact h
              | Composition l r =>
                  obtain ⟨sl, sr, hsl, hsr, rfl⟩ := decode_single_comp_inv hl h
                  exact decode_single_comp_ok hl (ih hle' hsl) (ih hle' hsr)

/-- A successful expansion only reads the id → token store, so it survives
any change that preserves existing bindings. -/
theorem decode_single_frame {v v' : Vocabulary}
    (hext : ∀ j t, lookupA v.tkns j = some t → lookupA v'.tkns j = some t)
    {fuel : Nat} {id : TknId} {s : Str}
    (h : decode_single v fuel id = .ok s) : decode_single v' fuel id = .ok s := by
  induction fuel generalizing id s with
  | zero => simp [decode_single] at h
  | succ fuel ih =>
      cases hl : lookupA v.tkns id with
      | none =>
          rw [decode_single_succ_none hl] at h
          exact Except.noConfusion h
      | some t =>
          cases t with
          | Unit c =>
              rw [decode_single_succ_unit hl] at h
              rw [decode_single_succ_unit (hext _ _ hl)]
              exact h
          | Composition l r =>
              obtain ⟨sl, sr, hsl, hsr, rfl⟩ := decode_single_comp_inv hl h
              exact decode_single_comp_ok (hext _ _ hl) (ih hsl) (ih hsr)

/-- A successful expansion starts from a registered id. -/
theorem decode_single_ok_registered {v : Vocabulary} {fuel : Nat} {id : TknId} {s : Str}
    (h : decode_single v fuel id = .ok s) : (lookupA v.tkns id).isSome := by
  cases fuel with
  | zero => simp [decode_single] at h
  | succ fuel =>
      cases hl : lookupA v.tkns id with
      | none =>
          rw [decode_single_succ_none hl] at h
          exact Except.noConfusion h
      | some t => simp

/-- In a well-formed vocabulary every registered id expands successfully
once the fuel exceeds the id (operand ids strictly decrease along the
composition DAG). -/
theorem decode_single_sufficient {v : Vocabulary} (hwf : WF v) :
    ∀ (id : TknId), (lookupA v.tkns id).isSome →
      ∀ (fuel : Nat), id < fuel → ∃ s, decode_single v fuel id = .ok s := by
  intro id
  induction id using Nat.strong_induction_on with
  | _ id ih =>
      intro hreg fuel hfuel
      obtain ⟨t, ht⟩ := Option.isSome_iff_exists.mp hreg
      cases fuel with
      | zero => exact absurd hfuel (Nat.not_lt_zero id)
      | succ fuel =>
          cases t with
          | Unit c => exact ⟨[c], decode_single_succ_unit ht⟩
          | Composition l r =>
              obtain ⟨hl, hr, hsl, hsr⟩ := hwf.2.2 _ (lookupA_mem ht)
              have hid_le : id ≤ fuel := Nat.lt_succ_iff.mp hfuel
              have hl' : l < id := hl
              have hr' : r < id := hr
              obtain ⟨sl, hokl⟩ := ih l hl' hsl fuel (Nat.lt_of_lt_of_le hl' hid_le)
              obtain ⟨sr, hokr⟩ := ih r hr' hsr fuel (Nat.lt_of_lt_of_le hr' hid_le)
              exact ⟨sl ++ sr, decode_single_comp_ok ht hokl hokr⟩

/-- Expansion results are unique across fuel values. -/
theorem decode_single_unique {v : Vocabulary} {fuel fuel' : Nat} {id : TknId} {s s' : Str}
    (h : decode_single v fuel id = .ok s) (h' : decode_single v fuel' id = .ok s') :
    s = s' := by
  have h1 := decode_single_mono (Nat.le_max_left fuel fuel') h
  have h2 := decode_single_mono (Nat.le_max_right fuel fuel') h'
  rw [h1] at h2
  injection h2

end DecodeSingleLemmas

section TextExpandLemmas

theorem textExpand_cons_ok {v : Vocabulary} {fuel : Nat} {id : TknId} {rest : List TknId}
    {s srest : Str} (h1 : decode_single v fuel id = .ok s)
    (h2 : textExpand v fuel rest = some srest) :
    textExpand v fuel (id :: rest) = some (s ++ srest) := by
  unfold textExpand
  rw [h1, h2]

/-- Inversion for `textExpand` on a cons cell. -/
theorem textExpand_cons_inv {v : Vocabulary} {fuel : Nat} {id : TknId} {rest : List TknId}
    {s : Str} (h : textExpand v fuel (id :: rest) = some s) :
    ∃ sid srest, decode_single v fuel id = .ok sid ∧
      textExpand v fuel rest = some srest ∧ s = sid ++ srest := by
  unfold textExpand at h
  cases hd : decode_single v fuel id with
  | error e => rw [hd] at h; simp at h
  | ok sid =>
      rw [hd] at h
      cases hr : textExpand v fuel rest with
      | none => rw [hr] at h; simp at h
      | some srest =>
          rw [hr] at h
          simp only [Option.some.injEq] at h
          exact ⟨sid, srest, rfl, rfl, h.symm⟩

theorem textExpand_mono {v : Vocabulary} {fuel fuel' : Nat} {text : List TknId} {s : Str}
    (hle : fuel ≤ fuel') (h : textExpand v fuel text = some s) :
    textExpand v fuel' text = some s := by
  induction text generalizing s with
  | nil =>
      simp [textExpand] at h
      simp [textExpand, h]
  | cons id rest ih =>
      obtain ⟨sid, srest, hd, hr, rfl⟩ := textExpand_cons_inv h
      exact textExpand_cons_ok (decode_single_mono hle hd) (ih hr)

theorem textExpand_frame {v v' : Vocabulary}
    (hext : ∀ j t, lookupA v.tkns j = some t → lookupA v'.tkns j = some t)
    {fuel : Nat} {text : List TknId} {s : Str}
    (h : textExpand v fuel text = some s) : textExpand v' fuel text = some s := by
  induction text generalizing s with
  | nil =>
      simp [textExpand] at h
      simp [textExpand, h]
  | cons id rest ih =>
      obtain ⟨sid, srest, hd, hr, rfl⟩ := textExpand_cons_inv h
      exact textExpand_cons_ok (decode_single_frame hext hd) (ih hr)

theorem textExpand_allReg {v : Vocabulary} {fuel : Nat} {text : List TknId} {s : Str}
    (h : textExpand v fuel text = some s) : AllReg v text := by
  induction text generalizing s with
  | nil => intro id hid; simp at hid
  | cons id rest ih =>
      obtain ⟨sid, srest, hd, hr, rfl⟩ := textExpand_cons_inv h
      intro j hj
      rcases List.mem_cons.mp hj with hj | hj
      · subst hj
        exact decode_single_ok_registered hd
      · exact ih hr _ hj

end TextExpandLemmas

section CountLemmas

theorem mem_adjPairs :
    ∀ (text : List TknId) (d : TknDiagram), d ∈ adjPairs text → d.1 ∈ text ∧ d.2 ∈ text := by
  intro text
  induction text with
  | nil => intro d hd; simp [adjPairs] at hd
  | cons a rest ih =>
      cases rest with
      | nil => intro d hd; simp [adjPairs] at hd
      | cons b rest' =>
          intro d hd
          simp only [adjPairs, List.mem_cons] at hd
          rcases hd with rfl | hd
          · exact ⟨List.mem_cons_self _ _, List.mem_cons_of_mem _ (List.mem_cons_self _ _)⟩
          · have hm := ih d hd
            exact ⟨List.mem_cons_of_mem _ hm.1, List.mem_cons_of_mem _ hm.2⟩

theorem mem_bumpCount {m : List (TknDiagram × Nat)} {k d : TknDiagram} {c : Nat}
    (h : (d, c) ∈ bumpCount m k) : d = k ∨ ∃ c', (d, c') ∈ m := by
  induction m with
  | nil =>
      simp only [bumpCount, List.mem_singleton] at h
      exact Or.inl (congrArg Prod.fst h)
  | cons q rest ih =>
      obtain ⟨k', c'⟩ := q
      by_cases hk : k' = k
      · subst hk
        simp only [bumpCount, if_pos rfl] at h
        cases h with
        | head => exact Or.inl rfl
        | tail b h1 => exact Or.inr ⟨c, List.mem_cons_of_mem _ h1⟩
      · simp only [bumpCount, if_neg hk, List.mem_cons] at h
        rcases h with h | h
        · refine Or.inr ⟨c', ?_⟩
          rw [show d = k' from congrArg Prod.fst h]
          exact List.mem_cons_self _ _
        · rcases ih h with h | ⟨c'', h⟩
          · exact Or.inl h
          · exact Or.inr ⟨c'', List.mem_cons_of_mem _ h⟩

theorem mem_digram_count :
    ∀ (text : List TknId) (m : List (TknDiagram × Nat)) (p : TknDiagram × Nat),
      p ∈ digram_count text m → p.1 ∈ adjPairs text ∨ ∃ c, (p.1, c) ∈ m := by
  intro text
  induction text with
  | nil =>
      intro m p h
      simp only [digram_count] at h
      exact Or.inr ⟨p.2, by simpa using h⟩
  | cons a rest ih =>
      cases rest with
      | nil =>
          intro m p h
          simp only [digram_count] at h
          exact Or.inr ⟨p.2, by simpa using h⟩
      | cons b rest' =>
          intro m p h
          simp only [digram_count] at h
          rcases ih _ p h with h1 | ⟨c, hc⟩
          · exact Or.inl (List.mem_cons_of_mem _ h1)
          · rcases mem_bumpCount hc with h2 | ⟨c', hc'⟩
            · exact Or.inl (by simp [adjPairs, h2])
            · exact Or.inr ⟨c', hc'⟩

theorem mem_insertSorted {x y : TknDiagram × Nat} :
    ∀ {l : List (TknDiagram × Nat)}, y ∈ insertSorted x l → y = x ∨ y ∈ l := by
  intro l
  induction l with
  | nil => intro h; simpa [insertSorted] using h
  | cons z zs ih =>
      intro h
      by_cases hz : z.2 < x.2
      · simp only [insertSorted, if_pos hz, List.mem_cons] at h
        rcases h with h | h
        · exact Or.inr (List.mem_cons.mpr (Or.inl h))
        · rcases ih h with h | h
          · exact Or.inl h
          · exact Or.inr (List.mem_cons_of_mem _ h)
      · simp only [insertSorted, if_neg hz, List.mem_cons] at h
        rcases h with h | h
        · exact Or.inl h
        · exact Or.inr (List.mem_cons.mpr h)

theorem mem_sortByCount {y : TknDiagram × Nat} :
    ∀ {l : List (TknDiagram × Nat)}, y ∈ sortByCount l → y ∈ l := by
  intro l
  induction l with
  | nil => intro h; simp [sortByCount] at h
  | cons x xs ih =>
      intro h
      simp only [sortByCount] at h
      rcases mem_insertSorted h with h | h
      · exact h ▸ List.mem_cons_self _ _
      · exact List.mem_cons_of_mem _ (ih h)

/-- Every selected entry comes from the count table and strictly exceeds
the cutoff. -/
theorem mem_top_n_digrams {counts : List (TknDiagram × Nat)} {n mn : Nat}
    {p : TknDiagram × Nat} (h : p ∈ top_n_digrams counts n mn) :
    p ∈ counts ∧ mn < p.2 := by
  unfold top_n_digrams at h
  have h1 : p ∈ (sortByCount (counts.filter (fun q => mn < q.2))).reverse :=
    (List.take_sublist _ _).subset h
  rw [List.mem_reverse] at h1
  have h2 : p ∈ counts.filter (fun q => mn < q.2) := mem_sortByCount h1
  rw [List.mem_filter] at h2
  exact ⟨h2.1, by simpa using h2.2⟩

theorem sorted_insertSorted {x : TknDiagram × Nat} {l : List (TknDiagram × Nat)}
    (h : l.Pairwise (fun p q => p.2 ≤ q.2)) :
    (insertSorted x l).Pairwise (fun p q => p.2 ≤ q.2) := by
  induction l with
  | nil => simp [insertSorted]
  | cons z zs ih =>
      rcases List.pairwise_cons.mp h with ⟨hz, hzs⟩
      by_cases hlt : z.2 < x.2
      · simp only [insertSorted, if_pos hlt]
        refine List.pairwise_cons.mpr ⟨?_, ih hzs⟩
        intro y hy
        rcases mem_insertSorted hy with rfl | hy
        · exact Nat.le_of_lt hlt
        · exact hz y hy
      · simp only [insertSorted, if_neg hlt]
        refine List.pairwise_cons.mpr ⟨?_, h⟩
        intro y hy
        rcases List.mem_cons.mp hy with rfl | hy
        · exact Nat.le_of_not_lt hlt
        · exact Nat.le_trans (Nat.le_of_not_lt hlt) (hz y hy)

theorem sorted_sortByCount (l : List (TknDiagram × Nat)) :
    (sortByCount l).Pairwise (fun p q => p.2 ≤ q.2) := by
  induction l with
  | nil => simp [sortByCount]
  | cons x xs ih => exact sorted_insertSorted ih

/-- The selection is sorted by count, descending. -/
theorem top_n_digrams_sorted (counts : List (TknDiagram × Nat)) (n mn : Nat) :
    (top_n_digrams counts n mn).Pairwise (fun p q => q.2 ≤ p.2) := by
  unfold top_n_digrams
  refine List.Pairwise.sublist (List.take_sublist _ _) ?_
  rw [List.pairwise_reverse]
  exact sorted_sortByCount _

/-- The selection never exceeds `n` entries. -/
theorem top_n_digrams_length (counts : List (TknDiagram × Nat)) (n mn : Nat) :
    (top_n_digrams counts n mn).length ≤ n := by
  unfold top_n_digrams
  rw [List.length_take]
  exact Nat.min_le_left _ _

end CountLemmas

section RewriteLemmas

theorem mem_rewriteScan_bounded (d : TknDiagram) (nid : TknId) :
    ∀ (n : Nat) (text : List TknId), text.length ≤ n →
      ∀ x, x ∈ rewriteScan d nid text → x = nid ∨ x ∈ text := by
  intro n
  induction n with
  | zero =>
      intro text hlen x hx
      cases text with
      | nil => simp [rewriteScan] at hx
      | cons a rest => simp at hlen
  | succ n ih =>
      intro text hlen x hx
      cases text with
      | nil => simp [rewriteScan] at hx
      | cons a rest =>
          cases rest with
          | nil =>
              simp only [rewriteScan, List.mem_singleton] at hx
              exact Or.inr (by simp [hx])
          | cons b rest' =>
              by_cases hd : (a, b) = d
              · simp only [rewriteScan, if_pos hd, List.mem_cons] at hx
                rcases hx with rfl | hx
                · exact Or.inl rfl
                · have hlen' : rest'.length ≤ n := by
                    simp only [List.length_cons] at hlen
                    omega
                  rcases ih rest' hlen' x hx with h | h
                  · exact Or.inl h
                  · exact Or.inr (List.mem_cons_of_mem _ (List.mem_cons_of_mem _ h))
              · simp only [rewriteScan, if_neg hd, List.mem_cons] at hx
                rcases hx with rfl | hx
                · exact Or.inr (List.mem_cons_self _ _)
                · have hlen' : (b :: rest').length ≤ n := by
                    simp only [List.length_cons] at hlen ⊢
                    omega
                  rcases ih _ hlen' x hx with h | h
                  · exact Or.inl h
                  · exact Or.inr (List.mem_cons_of_mem _ h)

/-- Every element of the rewritten sequence is the new id or an element of
the original sequence. -/
theorem mem_rewriteScan {d : TknDiagram} {nid : TknId} {text : List TknId} {x : TknId}
    (hx : x ∈ rewriteScan d nid text) : x = nid ∨ x ∈ text :=
  mem_rewriteScan_bounded d nid text.length text (Nat.le_refl _) x hx

theorem rewriteScan_textExpand_bounded {v : Vocabulary} {fuel : Nat} {d : TknDiagram}
    {nid : TknId} (hnid : lookupA v.tkns nid = some (Token.Composition d.1 d.2)) :
    ∀ (n : Nat) (text : List TknId), text.length ≤ n →
      ∀ s, textExpand v fuel text = some s →
        textExpand v (fuel + 1) (rewriteScan d nid text) = some s := by
  intro n
  induction n with
  | zero =>
      intro text hlen s hs
      cases text with
      | nil => simpa [rewriteScan, textExpand] using hs
      | cons a rest => simp at hlen
  | succ n ih =>
      intro text hlen s hs
      cases text with
      | nil => simpa [rewriteScan, textExpand] using hs
      | cons a rest =>
          cases rest with
          | nil =>
              simp only [rewriteScan]
              exact textExpand_mono (Nat.le_succ _) hs
          | cons b rest' =>
              obtain ⟨sa, s1, hda, h1, rfl⟩ := textExpand_cons_inv hs
              by_cases hd : (a, b) = d
              · obtain ⟨sb, s2, hdb, h2, rfl⟩ := textExpand_cons_inv h1
                simp only [rewriteScan, if_pos hd]
                have ha : d.1 = a := by rw [← hd]
                have hb : d.2 = b := by rw [← hd]
                have hcomp : decode_single v (fuel + 1) nid = .ok (sa ++ sb) :=
                  decode_single_comp_ok hnid (ha ▸ hda) (hb ▸ hdb)
                have hlen' : rest'.length ≤ n := by
                  simp only [List.length_cons] at hlen
                  omega
                have hrest := ih rest' hlen' s2 h2
                have := textExpand_cons_ok hcomp hrest
                rw [this]
                simp [List.append_assoc]
              · simp only [rewriteScan, if_neg hd]
                have hlen' : (b :: rest').length ≤ n := by
                  simp only [List.length_cons] at hlen ⊢
                  omega
                have hrest := ih _ hlen' _ h1
                exact textExpand_cons_ok (decode_single_mono (Nat.le_succ _) hda) hrest

/-- The greedy rewrite pass preserves the expanded text: replacing each
non-overlapping occurrence of the digram by an id whose token is exactly
the `Composition` of the digram keeps the concatenated expansion equal. -/
theorem rewriteScan_textExpand {v : Vocabulary} {fuel : Nat} {d : TknDiagram}
    {nid : TknId} (hnid : lookupA v.tkns nid = some (Token.Composition d.1 d.2))
    {text : List TknId} {s : Str} (hs : textExpand v fuel text = some s) :
    textExpand v (fuel + 1) (rewriteScan d nid text) = some s :=
  rewriteScan_textExpand_bounded hnid text.length text (Nat.le_refl _) s hs

end RewriteLemmas

section LoopLemmas

/-- Unfolding `new_id` when both operands are registered. -/
theorem new_id_eq {v : Vocabulary} {d : TknDiagram} {t1 t2 : Token}
    (h1 : lookupA v.tkns d.1 = some t1) (h2 : lookupA v.tkns d.2 = some t2) :
    new_id v d = some (push v (Token.Composition d.1 d.2)) := by
  unfold new_id
  simp only [h1, h2]

/-- Unfolding the digram-processing loop at a successful promotion. -/
theorem processDigramsRev_cons {v : Vocabulary} {text : List TknId} {cur : Nat}
    {d : TknDiagram × Nat} {rest : List (TknDiagram × Nat)} {nid : TknId} {v' : Vocabulary}
    (h : new_id v d.1 = some (nid, v')) :
    processDigramsRev v text cur (d :: rest) =
      processDigramsRev v' (rewriteScan d.1 nid text) (cur + 1) rest := by
  have heq : processDigramsRev v text cur (d :: rest) =
      match new_id v d.1 with
      | none => none
      | some (nid, v') =>
          processDigramsRev v' (rewriteScan d.1 nid text) (cur + 1) rest := rfl
  rw [heq, h]

/-- `preinit_vocabulary` with no well-formedness assumptions: it never
unregisters ids, every returned id is registered, and the decode cache is
untouched. -/
theorem preinit_total :
    ∀ (data : Str) (v : Vocabulary),
      (∀ j, (lookupA v.tkns j).isSome →
        (lookupA (preinit_vocabulary v data).2.tkns j).isSome) ∧
      AllReg (preinit_vocabulary v data).2 (preinit_vocabulary v data).1 ∧
      (preinit_vocabulary v data).2.id_to_string = v.id_to_string := by
  intro data
  induction data with
  | nil =>
      intro v
      refine ⟨fun j h => h, ?_, rfl⟩
      intro id hid
      simp [preinit_vocabulary] at hid
  | cons c rest ih =>
      intro v
      obtain ⟨ihmono, ihreg, ihcache⟩ := ih (push v (Token.Unit c)).2
      refine ⟨?_, ?_, ?_⟩
      · intro j h
        exact ihmono j (push_isSome_mono v _ h)
      · intro id hid
        simp only [preinit_vocabulary, List.mem_cons] at hid
        rcases hid with rfl | hid
        · exact ihmono _ (by rw [push_lookup_self]; rfl)
        · exact ihreg _ hid
      · simp only [preinit_vocabulary]
        exact ihcache.trans (push_id_to_string v _)

/-- The digram-processing loop with no well-formedness assumptions: if
every listed digram has registered operands and every sequence id is
registered, the loop cannot hit the `unwrap` panic, never unregisters ids,
keeps every id of the produced sequence registered, and leaves the decode
cache untouched. -/
theorem processDigramsRev_total :
    ∀ (ds : List (TknDiagram × Nat)) (v : Vocabulary) (text : List TknId) (cur : Nat),
      (∀ p ∈ ds, (lookupA v.tkns p.1.1).isSome ∧ (lookupA v.tkns p.1.2).isSome) →
      AllReg v text →
      ∃ v' text' cur',
        processDigramsRev v text cur ds = some (v', text', cur') ∧
        (∀ j, (lookupA v.tkns j).isSome → (lookupA v'.tkns j).isSome) ∧
        AllReg v' text' ∧ v'.id_to_string = v.id_to_string := by
  intro ds
  induction ds with
  | nil =>
      intro v text cur _ hreg
      exact ⟨v, text, cur, rfl, fun j h => h, hreg, rfl⟩
  | cons d rest ih =>
      intro v text cur hds hreg
      obtain ⟨t1, h1⟩ := Option.isSome_iff_exists.mp (hds d (List.mem_cons_self _ _)).1
      obtain ⟨t2, h2⟩ := Option.isSome_iff_exists.mp (hds d (List.mem_cons_self _ _)).2
      obtain ⟨nid, v1, hpush⟩ :
          ∃ nid v1, push v (Token.Composition d.1.1 d.1.2) = (nid, v1) := ⟨_, _, rfl⟩
      have hnew : new_id v d.1 = some (nid, v1) := by
        rw [new_id_eq h1 h2, hpush]
      have hmono1 : ∀ j, (lookupA v.tkns j).isSome → (lookupA v1.tkns j).isSome := by
        intro j h
        have hm := push_isSome_mono v (Token.Composition d.1.1 d.1.2) (j := j) h
        rw [hpush] at hm
        exact hm
      have hnid : lookupA v1.tkns nid = some (Token.Composition d.1.1 d.1.2) := by
        have hm := push_lookup_self v (Token.Composition d.1.1 d.1.2)
        rw [hpush] at hm
        exact hm
      have hreg1 : AllReg v1 (rewriteScan d.1 nid text) := by
        intro x hx
        rcases mem_rewriteScan hx with rfl | hx
        · rw [hnid]; rfl
        · exact hmono1 x (hreg x hx)
      have hds1 : ∀ p ∈ rest, (lookupA v1.tkns p.1.1).isSome ∧ (lookupA v1.tkns p.1.2).isSome := by
        intro p hp
        have hd := hds p (List.mem_cons_of_mem _ hp)
        exact ⟨hmono1 _ hd.1, hmono1 _ hd.2⟩
      obtain ⟨v', text', cur', heq, hmono2, hreg2, hcache2⟩ :=
        ih v1 (rewriteScan d.1 nid text) (cur + 1) hds1 hreg1
      refine ⟨v', text', cur', ?_, fun j h => hmono2 j (hmono1 j h), hreg2, ?_⟩
      · rw [processDigramsRev_cons hnew]
        exact heq
      · have hc : v1.id_to_string = v.id_to_string := by
          have hm := push_id_to_string v (Token.Composition d.1.1 d.1.2)
          rw [hpush] at hm
          exact hm
        exact hcache2.trans hc

/-- The selected digrams of a round all have both operands occurring in
the current sequence. -/
theorem top_digrams_operands {v : Vocabulary} {text : List TknId} {r c : Nat}
    (hreg : AllReg v text) :
    ∀ p ∈ (top_n_digrams (digram_count text []) r c).reverse,
      (lookupA v.tkns p.1.1).isSome ∧ (lookupA v.tkns p.1.2).isSome := by
  intro p hp
  rw [List.mem_reverse] at hp
  have hmem := (mem_top_n_digrams hp).1
  rcases mem_digram_count text [] p hmem with hpair | ⟨cc, hc⟩
  · have hm := mem_adjPairs text p.1 hpair
    exact ⟨hreg _ hm.1, hreg _ hm.2⟩
  · simp at hc

/-- The learning loop with no well-formedness assumptions: it always
returns (the `unwrap` panic is unreachable), never unregisters ids, keeps
the produced sequence registered, and leaves the decode cache untouched. -/
theorem learnLoop_total (m r c : Nat) :
    ∀ (rounds : Nat) (v : Vocabulary) (text : List TknId) (cur : Nat),
      AllReg v text →
      ∃ v' text' cur',
        learnLoop m r c rounds v text cur = some (v', text', cur') ∧
        (∀ j, (lookupA v.tkns j).isSome → (lookupA v'.tkns j).isSome) ∧
        AllReg v' text' ∧ v'.id_to_string = v.id_to_string := by
  intro rounds
  induction rounds with
  | zero =>
      intro v text cur hreg
      exact ⟨v, text, cur, rfl, fun j h => h, hreg, rfl⟩
  | succ rounds ih =>
      intro v text cur hreg
      by_cases hcur : cur = m
      · refine ⟨v, text, cur, ?_, fun j h => h, hreg, rfl⟩
        simp only [learnLoop]
        rw [if_pos hcur]
      · by_cases htop : top_n_digrams (digram_count text []) r c = []
        · refine ⟨v, text, cur, ?_, fun j h => h, hreg, rfl⟩
          simp only [learnLoop]
          rw [if_neg hcur, if_pos htop]
        · obtain ⟨v1, t1, c1, heq, hmono1, hreg1, hcache1⟩ :=
            processDigramsRev_total _ v text cur (top_digrams_operands hreg) hreg
          obtain ⟨v', t', c', heq2, hmono2, hreg2, hcache2⟩ := ih v1 t1 c1 hreg1
          refine ⟨v', t', c', ?_, fun j h => hmono2 j (hmono1 j h), hreg2,
            hcache2.trans hcache1⟩
          simp only [learnLoop]
          rw [if_neg hcur, if_neg htop, heq]
          exact heq2

/-- `learn` with no assumptions at all: it always returns, and the decode
cache is untouched. -/
theorem learn_total (v : Vocabulary) (data : Str) (m r c : Nat) :
    ∃ v' text' cur', learn v data m r c = some (v', text', cur') ∧
      v'.id_to_string = v.id_to_string := by
  obtain ⟨hmono0, hreg0, hcache0⟩ := preinit_total data v
  obtain ⟨v', t', c', heq, hmono, hreg, hcache⟩ :=
    learnLoop_total m r c m (preinit_vocabulary v data).2 (preinit_vocabulary v data).1 0 hreg0
  refine ⟨v', t', c', ?_, hcache.trans hcache0⟩
  unfold learn
  exact heq

/-- `preinit_vocabulary` from a well-formed vocabulary: well-formedness is
preserved, existing bindings are preserved exactly, the decode cache is
untouched, and the returned sequence expands (with fuel 1) to the input
text. -/
theorem preinit_master :
    ∀ (data : Str) (v : Vocabulary), WF v →
      WF (preinit_vocabulary v data).2 ∧
      (∀ j t, lookupA v.tkns j = some t →
        lookupA (preinit_vocabulary v data).2.tkns j = some t) ∧
      textExpand (preinit_vocabulary v data).2 1 (preinit_vocabulary v data).1 = some data := by
  intro data
  induction data with
  | nil =>
      intro v hwf
      exact ⟨hwf, fun j t h => h, rfl⟩
  | cons c rest ih =>
      intro v hwf
      have hwf1 : WF (push v (Token.Unit c)).2 := push_WF hwf trivial
      obtain ⟨hwf2, hframe2, hexp2⟩ := ih (push v (Token.Unit c)).2 hwf1
      refine ⟨hwf2, ?_, ?_⟩
      · intro j t h
        exact hframe2 _ _ (push_lookup_preserved hwf _ h)
      · have hhead : lookupA (preinit_vocabulary (push v (Token.Unit c)).2 rest).2.tkns
            (push v (Token.Unit c)).1 = some (Token.Unit c) :=
          hframe2 _ _ (push_lookup_self v _)
        have hdec : decode_single (preinit_vocabulary (push v (Token.Unit c)).2 rest).2 1
            (push v (Token.Unit c)).1 = .ok [c] := decode_single_succ_unit hhead
        have := textExpand_cons_ok hdec hexp2
        simpa [preinit_vocabulary] using this

/-- The digram-processing loop from a well-formed vocabulary whose current
sequence expands to `data`: the loop succeeds, keeps well-formedness,
preserves existing bindings exactly, leaves the decode cache untouched,
and the rewritten sequence still expands to `data`. -/
theorem processDigramsRev_master :
    ∀ (ds : List (TknDiagram × Nat)) (v : Vocabulary) (text : List TknId)
      (cur fuel : Nat) (data : Str),
      WF v →
      (∀ p ∈ ds, (lookupA v.tkns p.1.1).isSome ∧ (lookupA v.tkns p.1.2).isSome) →
      textExpand v fuel text = some data →
      ∃ v' text' cur' fuel',
        processDigramsRev v text cur ds = some (v', text', cur') ∧ WF v' ∧
        (∀ j t, lookupA v.tkns j = some t → lookupA v'.tkns j = some t) ∧
        v'.id_to_string = v.id_to_string ∧
        textExpand v' fuel' text' = some data := by
  intro ds
  induction ds with
  | nil =>
      intro v text cur fuel data hwf _ hexp
      exact ⟨v, text, cur, fuel, rfl, hwf, fun j t h => h, rfl, hexp⟩
  | cons d rest ih =>
      intro v text cur fuel data hwf hds hexp
      obtain ⟨t1, h1⟩ := Option.isSome_iff_exists.mp (hds d (List.mem_cons_self _ _)).1
      obtain ⟨t2, h2⟩ := Option.isSome_iff_exists.mp (hds d (List.mem_cons_self _ _)).2
      obtain ⟨nid, v1, hpush⟩ :
          ∃ nid v1, push v (Token.Composition d.1.1 d.1.2) = (nid, v1) := ⟨_, _, rfl⟩
      have hnew : new_id v d.1 = some (nid, v1) := by
        rw [new_id_eq h1 h2, hpush]
      have hwf1 : WF v1 := by
        have hw := push_WF hwf (t := Token.Composition d.1.1 d.1.2)
          ⟨(hds d (List.mem_cons_self _ _)).1, (hds d (List.mem_cons_self _ _)).2⟩
        rw [hpush] at hw
        exact hw
      have hframe1 : ∀ j t, lookupA v.tkns j = some t → lookupA v1.tkns j = some t := by
        intro j t h
        have hm := push_lookup_preserved hwf (Token.Composition d.1.1 d.1.2) h
        rw [hpush] at hm
        exact hm
      have hnid : lookupA v1.tkns nid = some (Token.Composition d.1.1 d.1.2) := by
        have hm := push_lookup_self v (Token.Composition d.1.1 d.1.2)
        rw [hpush] at hm
        exact hm
      have hexp1 : textExpand v1 fuel text = some data := textExpand_frame hframe1 hexp
      have hexp2 : textExpand v1 (fuel + 1) (rewriteScan d.1 nid text) = some data :=
        rewriteScan_textExpand hnid hexp1
      have hds1 : ∀ p ∈ rest, (lookupA v1.tkns p.1.1).isSome ∧ (lookupA v1.tkns p.1.2).isSome := by
        intro p hp
        obtain ⟨u1, hu1⟩ := Option.isSome_iff_exists.mp (hds p (List.mem_cons_of_mem _ hp)).1
        obtain ⟨u2, hu2⟩ := Option.isSome_iff_exists.mp (hds p (List.mem_cons_of_mem _ hp)).2
        exact ⟨by rw [hframe1 _ _ hu1]; rfl, by rw [hframe1 _ _ hu2]; rfl⟩
      obtain ⟨v', text', cur', fuel', heq, hwf', hframe2, hcache2, hexp'⟩ :=
        ih v1 (rewriteScan d.1 nid text) (cur + 1) (fuel + 1) data hwf1 hds1 hexp2
      refine ⟨v', text', cur', fuel', ?_, hwf',
        fun j t h => hframe2 _ _ (hframe1 _ _ h), ?_, hexp'⟩
      · rw [processDigramsRev_cons hnew]
        exact heq
      · have hc : v1.id_to_string = v.id_to_string := by
          have hm := push_id_to_string v (Token.Composition d.1.1 d.1.2)
          rw [hpush] at hm
          exact hm
        exact hcache2.trans hc

/-- The learning loop from a well-formed vocabulary whose current sequence
expands to `data`. -/
theorem learnLoop_master (m r c : Nat) :
    ∀ (rounds : Nat) (v : Vocabulary) (text : List TknId) (cur fuel : Nat) (data : Str),
      WF v →
      textExpand v fuel text = some data →
      ∃ v' text' cur' fuel',
        learnLoop m r c rounds v text cur = some (v', text', cur') ∧ WF v' ∧
        (∀ j t, lookupA v.tkns j = some t → lookupA v'.tkns j = some t) ∧
        v'.id_to_string = v.id_to_string ∧
        textExpand v' fuel' text' = some data := by
  intro rounds
  induction rounds with
  | zero =>
      intro v text cur fuel data hwf hexp
      exact ⟨v, text, cur, fuel, rfl, hwf, fun j t h => h, rfl, hexp⟩
  | succ rounds ih =>
      intro v text cur fuel data hwf hexp
      by_cases hcur : cur = m
      · refine ⟨v, text, cur, fuel, ?_, hwf, fun j t h => h, rfl, hexp⟩
        simp only [learnLoop]
        rw [if_pos hcur]
      · by_cases htop : top_n_digrams (digram_count text []) r c = []
        · refine ⟨v, text, cur, fuel, ?_, hwf, fun j t h => h, rfl, hexp⟩
          simp only [learnLoop]
          rw [if_neg hcur, if_pos htop]
        · obtain ⟨v1, t1, c1, fuel1, heq, hwf1, hframe1, hcache1, hexp1⟩ :=
            processDigramsRev_master _ v text cur fuel data hwf
              (top_digrams_operands (textExpand_allReg hexp)) hexp
          obtain ⟨v', t', c', fuel', heq2, hwf', hframe2, hcache2, hexp'⟩ :=
            ih v1 t1 c1 fuel1 data hwf1 hexp1
          refine ⟨v', t', c', fuel', ?_, hwf',
            fun j t h => hframe2 _ _ (hframe1 _ _ h), hcache2.trans hcache1, hexp'⟩
          simp only [learnLoop]
          rw [if_neg hcur, if_neg htop, heq]
          exact heq2

/-- `learn` from a well-formed vocabulary: it succeeds, the resulting
vocabulary is well-formed, the decode cache is untouched, and the returned
sequence expands to the input text. -/
theorem learn_master (v : Vocabulary) (data : Str) (m r c : Nat) (hwf : WF v) :
    ∃ v' text' cur' fuel',
      learn v data m r c = some (v', text', cur') ∧ WF v' ∧
      v'.id_to_string = v.id_to_string ∧
      textExpand v' fuel' text' = some data := by
  obtain ⟨hwf0, hframe0, hexp0⟩ := preinit_master data v hwf
  obtain ⟨v', t', c', fuel', heq, hwf', hframe', hcache', hexp'⟩ :=
    learnLoop_master m r c m (preinit_vocabulary v data).2 (preinit_vocabulary v data).1
      0 1 data hwf0 hexp0
  refine ⟨v', t', c', fuel', ?_, hwf', ?_, hexp'⟩
  · unfold learn
    exact heq
  · rw [hcache']
    obtain ⟨_, _, hc⟩ := preinit_total data v
    exact hc

end LoopLemmas

section DecodeLemmas

theorem lookupA_isSome_of_mem {α β : Type} [DecidableEq α] {m : List (α × β)} {k : α} {b : β}
    (h : (k, b) ∈ m) : (lookupA m k).isSome := by
  induction m with
  | nil => simp at h
  | cons p rest ih =>
      obtain ⟨k', b'⟩ := p
      by_cases hk : k' = k
      · subst hk
        simp [lookupA]
      · rcases List.mem_cons.mp h with h1 | h1
        · exact absurd (congrArg Prod.fst h1).symm hk
        · simp only [lookupA, if_neg hk]
          exact ih h1

/-- `buildCache` succeeds whenever every listed id expands, and the
resulting cache maps exactly the listed ids to their expansions. -/
theorem buildCache_spec {v : Vocabulary} {fuel : Nat} :
    ∀ (entries : List (TknId × Token)),
      (∀ p ∈ entries, ∃ s, decode_single v fuel p.1 = .ok s) →
      ∃ cache, buildCache v fuel entries = .ok cache ∧
        (∀ j s, lookupA cache j = some s → decode_single v fuel j = .ok s) ∧
        (∀ j, (lookupA entries j).isSome → (lookupA cache j).isSome) ∧
        (∀ j, lookupA entries j = none → lookupA cache j = none) := by
  intro entries
  induction entries with
  | nil =>
      intro _
      refine ⟨[], rfl, ?_, ?_, fun j _ => rfl⟩
      · intro j s h
        simp [lookupA] at h
      · intro j h
        simp [lookupA] at h
  | cons p rest ih =>
      intro hall
      obtain ⟨id, t⟩ := p
      obtain ⟨s, hs⟩ := hall (id, t) (List.mem_cons_self _ _)
      obtain ⟨cache, hc, hp1, hp2, hp3⟩ := ih (fun q hq => hall q (List.mem_cons_of_mem _ hq))
      refine ⟨(id, s) :: cache, ?_, ?_, ?_, ?_⟩
      · simp only [buildCache, hs, hc]
      · intro j s' hj
        by_cases hij : id = j
        · subst hij
          simp [lookupA] at hj
          rw [← hj]
          exact hs
        · simp only [lookupA, if_neg hij] at hj
          exact hp1 j s' hj
      · intro j hj
        by_cases hij : id = j
        · subst hij
          simp [lookupA]
        · simp only [lookupA, if_neg hij] at hj ⊢
          exact hp2 j hj
      · intro j hj
        by_cases hij : id = j
        · subst hij
          simp [lookupA] at hj
        · simp only [lookupA, if_neg hij] at hj ⊢
          exact hp3 j hj

/-- `decode` with the cache already built: the vocabulary is unchanged and
the output is read off the cache. -/
theorem decode_cached {v : Vocabulary} {cache : List (TknId × Str)}
    (h : v.id_to_string = some cache) (fuel : Nat) (ids : List TknId) :
    decode v fuel ids = .ok (v, cacheOutput cache ids) := by
  unfold decode
  rw [h]

/-- `decode` on a cache-less vocabulary whose cache build succeeds. -/
theorem decode_uncached {v : Vocabulary} {fuel : Nat} {cache : List (TknId × Str)}
    (h : v.id_to_string = none) (hb : buildCache v fuel v.tkns = .ok cache)
    (ids : List TknId) :
    decode v fuel ids =
      .ok ({ v with id_to_string := some cache }, cacheOutput cache ids) := by
  unfold decode
  simp only [h, hb]

/-- The cache entries of a well-formed cache-less vocabulary reproduce any
`textExpand` value. -/
theorem cacheOutput_textExpand {v : Vocabulary} {cache : List (TknId × Str)} {fuelC : Nat}
    (hp1 : ∀ j s, lookupA cache j = some s → decode_single v fuelC j = .ok s)
    (hp2 : ∀ j, (lookupA v.tkns j).isSome → (lookupA cache j).isSome) :
    ∀ (text : List TknId) (fuel : Nat) (data : Str),
      textExpand v fuel text = some data → cacheOutput cache text = data := by
  intro text
  induction text with
  | nil =>
      intro fuel data h
      simp only [textExpand, Option.some.injEq] at h
      rw [← h]
      rfl
  | cons id rest ih =>
      intro fuel data h
      obtain ⟨sid, srest, hd, hr, rfl⟩ := textExpand_cons_inv h
      have hreg : (lookupA v.tkns id).isSome := decode_single_ok_registered hd
      obtain ⟨s', hs'⟩ := Option.isSome_iff_exists.mp (hp2 id hreg)
      have hsid : s' = sid := decode_single_unique (hp1 id s' hs') hd
      subst hsid
      simp only [cacheOutput, hs']
      rw [ih fuel srest hr]

/-- An unregistered id fails to expand at every fuel value. -/
theorem decode_single_unreg {v : Vocabulary} {id : TknId}
    (h : lookupA v.tkns id = none) :
    ∀ fuel, ∃ e, decode_single v fuel id = .error e := by
  intro fuel
  cases fuel with
  | zero => exact ⟨.outOfFuel, rfl⟩
  | succ fuel => exact ⟨.unknownSymbol, decode_single_succ_none h⟩

/-- Decoding a whole well-formed vocabulary: the cache build succeeds and
the cache is faithful (`fuel = v.size`). -/
theorem buildCache_WF {v : Vocabulary} (hwf : WF v) :
    ∃ cache, buildCache v v.size v.tkns = .ok cache ∧
      (∀ j s, lookupA cache j = some s → decode_single v v.size j = .ok s) ∧
      (∀ j, (lookupA v.tkns j).isSome → (lookupA cache j).isSome) ∧
      (∀ j, lookupA v.tkns j = none → lookupA cache j = none) :=
  buildCache_spec v.tkns (by
    intro p hp
    have hreg : (lookupA v.tkns p.1).isSome := by
      have hp' : (p.1, p.2) ∈ v.tkns := by
        rw [Prod.mk.eta]
        exact hp
      exact lookupA_isSome_of_mem hp'
    exact decode_single_sufficient hwf p.1 hreg v.size (hwf.1 p hp))

end DecodeLemmas

section ReachableStates

/-- Inversion of a successful `new_id`. -/
theorem new_id_inv {v : Vocabulary} {d : TknDiagram} {nid : TknId} {v' : Vocabulary}
    (h : new_id v d = some (nid, v')) :
    ∃ t1 t2, lookupA v.tkns d.1 = some t1 ∧ lookupA v.tkns d.2 = some t2 ∧
      push v (Token.Composition d.1 d.2) = (nid, v') := by
  unfold new_id at h
  cases h1 : lookupA v.tkns d.1 with
  | none =>
      cases h2 : lookupA v.tkns d.2 with
      | none => simp [h1, h2] at h
      | some t2 => simp [h1, h2] at h
  | some t1 =>
      cases h2 : lookupA v.tkns d.2 with
      | none => simp [h1, h2] at h
      | some t2 =>
          simp only [h1, h2, Option.some.injEq] at h
          exact ⟨t1, t2, rfl, rfl, h⟩

/-- `new_id` preserves well-formedness. -/
theorem new_id_WF {v : Vocabulary} {d : TknDiagram} {nid : TknId} {v' : Vocabulary}
    (hwf : WF v) (h : new_id v d = some (nid, v')) : WF v' := by
  obtain ⟨t1, t2, h1, h2, hpush⟩ := new_id_inv h
  have hw := push_WF hwf (t := Token.Composition d.1 d.2)
    ⟨by rw [h1]; rfl, by rw [h2]; rfl⟩
  rw [hpush] at hw
  exact hw

/-- `learn` preserves well-formedness. -/
theorem learn_WF {v : Vocabulary} {data : Str} {m r c : Nat} {v' : Vocabulary}
    {text : List TknId} {n : Nat} (hwf : WF v)
    (h : learn v data m r c = some (v', text, n)) : WF v' := by
  obtain ⟨v2, t2, c2, fuel2, heq, hwf2, hca2, hex2⟩ := learn_master v data m r c hwf
  have h2 : (v', text, n) = (v2, t2, c2) := Option.some.inj (h.symm.trans heq)
  rw [show v' = v2 from congrArg (fun p => p.1) h2]
  exact hwf2

/-- A successful `decode` changes at most the decode cache. -/
theorem decode_fields {v : Vocabulary} {fuel : Nat} {ids : List TknId} {v' : Vocabulary}
    {s : Str} (h : decode v fuel ids = .ok (v', s)) :
    v'.tkns = v.tkns ∧ v'.ids = v.ids ∧ v'.size = v.size := by
  unfold decode at h
  cases hc : v.id_to_string with
  | some cache =>
      simp only [hc, Except.ok.injEq] at h
      have hv : v = v' := congrArg Prod.fst h
      rw [← hv]
      exact ⟨rfl, rfl, rfl⟩
  | none =>
      cases hb : buildCache v fuel v.tkns with
      | error e => simp [hc, hb] at h
      | ok cache =>
          simp only [hc, hb, Except.ok.injEq] at h
          have hv : { v with id_to_string := some cache } = v' := congrArg Prod.fst h
          rw [← hv]
          exact ⟨rfl, rfl, rfl⟩

/-- Well-formedness only depends on the token store, the reverse map and
the size counter. -/
theorem WF_of_fields {v v' : Vocabulary} (ht : v'.tkns = v.tkns) (hi : v'.ids = v.ids)
    (hs : v'.size = v.size) (h : WF v) : WF v' := by
  obtain ⟨h1, h2, h3⟩ := h
  have hmono : ∀ j, (lookupA v.tkns j).isSome → (lookupA v'.tkns j).isSome := by
    intro j hj
    rw [ht]
    exact hj
  refine ⟨?_, ?_, ?_⟩
  · intro p hp
    rw [ht] at hp
    rw [hs]
    exact h1 p hp
  · intro q hq
    rw [hi] at hq
    rw [ht]
    exact h2 q hq
  · intro p hp
    rw [ht] at hp
    exact tokenOk_mono hmono (h3 p hp)

/-- Every reachable vocabulary state is well-formed. -/
theorem Reachable_WF {v : Vocabulary} (h : Reachable v) : WF v := by
  induction h with
  | base => exact WF_new
  | pushUnit c _ ih => exact push_WF ih trivial
  | compose _ hne ih => exact new_id_WF ih hne
  | seed data _ ih => exact (preinit_master data _ ih).1
  | learnStep _ hl ih => exact learn_WF ih hl
  | decodeStep _ hd ih =>
      obtain ⟨ht, hi, hs⟩ := decode_fields hd
      exact WF_of_fields ht hi hs ih

end ReachableStates

section RegisterInvariants

theorem RegInv_new : RegInv Vocabulary.new := by
  refine ⟨?_, ?_, ?_⟩
  · intro p hp
    simp [Vocabulary.new] at hp
  · intro q hq
    simp [Vocabulary.new] at hq
  · intro id hid
    exact absurd hid (Nat.not_lt_zero id)

/-- `push` of an arbitrary token preserves `RegInv`. -/
theorem push_RegInv {v : Vocabulary} (h : RegInv v) (t : Token) : RegInv (push v t).2 := by
  obtain ⟨h1, h2, h3⟩ := h
  cases hid : lookupA v.ids t with
  | some id =>
      have hco : lookupA v.tkns id = some t := h2 _ (lookupA_mem hid)
      rw [push_found hid]
      refine ⟨?_, ?_, ?_⟩
      · intro p hp
        rcases mem_insertA hp with hh | hh
        · subst hh
          exact h1 _ (lookupA_mem hco)
        · exact h1 _ hh
      · intro q hq
        have hq2 : lookupA v.tkns q.2 = some q.1 := h2 _ hq
        simp only [lookupA_insertA]
        by_cases hj : id = q.2
        · subst hj
          rw [hco] at hq2
          simp [hq2]
        · simp [if_neg hj, hq2]
      · intro j hj
        exact lookupA_isSome_insertA _ _ (h3 j hj)
  | none =>
      rw [push_fresh_eq hid]
      refine ⟨?_, ?_, ?_⟩
      · intro p hp
        rcases mem_insertA hp with hh | hh
        · subst hh
          exact Nat.lt_succ_self _
        · exact Nat.lt_succ_of_lt (h1 _ hh)
      · intro q hq
        simp only [lookupA_insertA]
        rcases mem_insertA hq with hh | hh
        · subst hh
          simp
        · have hq2 : lookupA v.tkns q.2 = some q.1 := h2 _ hh
          have hne : ¬ v.size = q.2 := Nat.ne_of_gt (h1 _ (lookupA_mem hq2))
          simp [if_neg hne, hq2]
      · intro j hj
        simp only [lookupA_insertA]
        by_cases hje : v.size = j
        · simp [hje]
        · have hj' : j < v.size := by
            have : j < v.size + 1 := hj
            have : j ≤ v.size := Nat.lt_succ_iff.mp this
            exact Nat.lt_of_le_of_ne this (fun hh => hje hh.symm)
          simp only [if_neg hje]
          exact h3 j hj'

theorem pushAll_RegInv : ∀ (ts : List Token) (v : Vocabulary), RegInv v → RegInv (pushAll v ts) := by
  intro ts
  induction ts with
  | nil => exact fun v h => h
  | cons t rest ih => exact fun v h => ih _ (push_RegInv h t)

theorem vocabOf_RegInv (ts : List Token) : RegInv (vocabOf ts) :=
  pushAll_RegInv ts Vocabulary.new RegInv_new

/-- Dense ids in a `RegInv` state: registered iff below size. -/
theorem RegInv_dense {v : Vocabulary} (h : RegInv v) :
    ∀ id : TknId, (lookupA v.tkns id).isSome ↔ id < v.size := by
  intro id
  constructor
  · intro hs
    obtain ⟨t, ht⟩ := Option.isSome_iff_exists.mp hs
    exact h.1 _ (lookupA_mem ht)
  · exact h.2.2 id

/-- Distinct tokens never share an id in a `RegInv` state. -/
theorem RegInv_inj {v : Vocabulary} (h : RegInv v) :
    ∀ (t1 t2 : Token) (id : TknId),
      lookupA v.ids t1 = some id → lookupA v.ids t2 = some id → t1 = t2 := by
  intro t1 t2 id h1 h2
  have e1 : lookupA v.tkns id = some t1 := h.2.1 _ (lookupA_mem h1)
  have e2 : lookupA v.tkns id = some t2 := h.2.1 _ (lookupA_mem h2)
  rw [e1] at e2
  exact Option.some.inj e2

end RegisterInvariants

section Claims

/-- C1: the claim that `learn` increments its promotion counter once per
promotion and stops entirely once it reaches `merges` fails on the code:
the counter is compared with `merges` only at the start of a round, and
the inner digram loop keeps promoting, so a round that selects
`replacements > 1` digrams overshoots the budget.  On input "aaab" with
`merges = 1`, `replacements = 2`, `cutoff = 0`, `learn` performs two
promotions: the final counter value is 2 and the vocabulary ends with four
tokens (two characters plus two composites) instead of three. -/
theorem learn_promotions_exceed_merges :
    (learn Vocabulary.new ['a', 'a', 'a', 'b'] 1 2 0).map (fun p => p.2.2) = some 2 ∧
    (learn Vocabulary.new ['a', 'a', 'a', 'b'] 1 2 0).map (fun p => p.1.size) = some 4 ∧
    1 < 2 := by
  decide

/-- C2: round-trip: for every input text and all parameter values (hence
in particular with `cutoff = 0` and `merges`/`replacements` as large as
desired), `learn` from the empty vocabulary succeeds and bulk-decoding the
returned id sequence against the resulting vocabulary reproduces the input
text exactly. -/
theorem learn_decode_roundtrip :
    ∀ (data : Str) (m r c : Nat),
      ∃ v text n v',
        learn Vocabulary.new data m r c = some (v, text, n) ∧
        decode v v.size text = .ok (v', data) := by
  intro data m r c
  obtain ⟨v, text, n, fuel, heq, hwf, hcache, hexp⟩ :=
    learn_master Vocabulary.new data m r c WF_new
  have hnone : v.id_to_string = none := hcache
  obtain ⟨cache, hb, hp1, hp2, hp3⟩ := buildCache_WF hwf
  have hout : cacheOutput cache text = data := cacheOutput_textExpand hp1 hp2 text fuel data hexp
  refine ⟨v, text, n, { v with id_to_string := some cache }, heq, ?_⟩
  rw [decode_uncached hnone hb text, hout]

/-- C3: expansion preservation: (i) one promotion step inside `learn` — the
`new_id` creation of the digram's composite followed by the rewrite pass —
preserves the concatenated `decode_single` expansion of the current
sequence (`textExpand`), for every well-formed vocabulary and digram with
registered operands; (ii) the sequence `learn` finally returns expands to
the original input text, for every choice of `merges`, `replacements` and
`cutoff` (not only under the round-trip conditions of the spec). -/
theorem expansion_invariant :
    (∀ (v : Vocabulary) (d : TknDiagram) (text : List TknId) (fuel : Nat) (data : Str),
      WF v →
      (lookupA v.tkns d.1).isSome →
      (lookupA v.tkns d.2).isSome →
      textExpand v fuel text = some data →
      ∃ nid v', new_id v d = some (nid, v') ∧
        textExpand v' (fuel + 1) (rewriteScan d nid text) = some data) ∧
    (∀ (data : Str) (m r c : Nat) (v : Vocabulary) (text : List TknId) (n : Nat),
      learn Vocabulary.new data m r c = some (v, text, n) →
      ∃ fuel, textExpand v fuel text = some data) := by
  constructor
  · intro v d text fuel data hwf h1 h2 hexp
    obtain ⟨t1, ht1⟩ := Option.isSome_iff_exists.mp h1
    obtain ⟨t2, ht2⟩ := Option.isSome_iff_exists.mp h2
    obtain ⟨nid, v1, hpush⟩ :
        ∃ nid v1, push v (Token.Composition d.1 d.2) = (nid, v1) := ⟨_, _, rfl⟩
    have hnew : new_id v d = some (nid, v1) := by
      rw [new_id_eq ht1 ht2, hpush]
    have hframe : ∀ j t, lookupA v.tkns j = some t → lookupA v1.tkns j = some t := by
      intro j t h
      have hm := push_lookup_preserved hwf (Token.Composition d.1 d.2) h
      rw [hpush] at hm
      exact hm
    have hnid : lookupA v1.tkns nid = some (Token.Composition d.1 d.2) := by
      have hm := push_lookup_self v (Token.Composition d.1 d.2)
      rw [hpush] at hm
      exact hm
    exact ⟨nid, v1, hnew, rewriteScan_textExpand hnid (textExpand_frame hframe hexp)⟩
  · intro data m r c v text n h
    obtain ⟨v2, t2, c2, fuel2, heq, hwf2, hca2, hex2⟩ :=
      learn_master Vocabulary.new data m r c WF_new
    have h2 : (v, text, n) = (v2, t2, c2) := Option.some.inj (h.symm.trans heq)
    rw [show v = v2 from congrArg (fun p => p.1) h2,
      show text = t2 from congrArg (fun p => p.2.1) h2]
    exact ⟨fuel2, hex2⟩

/-- C3 witness: one concrete promotion step on the vocabulary seeded with
"ab" preserves the expansion. -/
theorem expansion_invariant_witness :
    ∃ nid v', new_id vocabAB (0, 1) = some (nid, v') ∧
      textExpand v' 2 (rewriteScan (0, 1) nid [0, 1]) = some ['a', 'b'] :=
  expansion_invariant.1 vocabAB (0, 1) [0, 1] 1 ['a', 'b']
    (by decide) (by decide) (by decide) (by decide)

/-- C4 counterexample: `push` (the spec's `register`) belongs to the
claim's operation set and performs no validation, so a one-call sequence
breaks the invariant: pushing a raw `Composition 0 1` into the empty
vocabulary registers it under id 0, whose left operand 0 is not strictly
smaller than the composite's own id (a self-reference) and whose right
operand 1 is not registered at all. -/
theorem dag_push_counterexample :
    lookupA (push Vocabulary.new (Token.Composition 0 1)).2.tkns 0 =
      some (Token.Composition 0 1) ∧
    ¬ 0 < 0 ∧
    lookupA (push Vocabulary.new (Token.Composition 0 1)).2.tkns 1 = none := by
  decide

/-- C4 (amended): with `push` restricted to leaf tokens — composites being
created only through `try_compose` (`new_id`), as `seed`, `learn` and
`decode` do — every reachable vocabulary state satisfies the DAG
invariant: each registered `Composition`'s operands are registered and
strictly smaller than the composite's own identifier, so the symbol table
is acyclic. -/
theorem dag_invariant_reachable :
    ∀ (v : Vocabulary), Reachable v →
      ∀ (id l r : TknId), lookupA v.tkns id = some (Token.Composition l r) →
        l < id ∧ r < id ∧ (lookupA v.tkns l).isSome ∧ (lookupA v.tkns r).isSome := by
  intro v hr id l r h
  exact (Reachable_WF hr).2.2 _ (lookupA_mem h)

/-- C4 witness: the reachable state built by seeding "ab" and composing
the digram `(0, 1)` satisfies the DAG invariant at its composite. -/
theorem dag_invariant_reachable_witness :
    0 < 2 ∧ 1 < 2 ∧ (lookupA vocabABC.tkns 0).isSome ∧ (lookupA vocabABC.tkns 1).isSome := by
  have hr : Reachable vocabABC :=
    Reachable.compose (Reachable.seed ['a', 'b'] Reachable.base)
      (by decide : new_id vocabAB (0, 1) = some (2, vocabABC))
  exact dag_invariant_reachable vocabABC hr 2 0 1 (by decide)

/-- C5: the greedy rewrite rule: the defining equations of the single
left-to-right non-overlapping scan used by each promotion in `learn`
(match → emit the new id and advance by two; otherwise emit the element
and advance by one; a final dangling element is emitted unchanged), its
greedy-leftmost resolution of overlaps (for a self-pair digram, `[x, x, x]`
rewrites to `[nid, x]`, leaving the boundary instance unmerged), and the
fact that each promotion inside `learn`'s digram loop applies exactly this
scan once. -/
theorem rewrite_scan_spec :
    ∀ (d : TknDiagram) (nid a b x : TknId) (rest : List TknId) (v : Vocabulary)
      (text : List TknId) (cur : Nat) (p : TknDiagram × Nat)
      (ds : List (TknDiagram × Nat)) (nid' : TknId) (v' : Vocabulary),
      rewriteScan d nid [] = [] ∧
      rewriteScan d nid [a] = [a] ∧
      rewriteScan d nid (a :: b :: rest) =
        (if (a, b) = d then nid :: rewriteScan d nid rest
         else a :: rewriteScan d nid (b :: rest)) ∧
      rewriteScan (x, x) nid [x, x, x] = [nid, x] ∧
      (new_id v p.1 = some (nid', v') →
        processDigramsRev v text cur (p :: ds) =
          processDigramsRev v' (rewriteScan p.1 nid' text) (cur + 1) ds) := by
  intro d nid a b x rest v text cur p ds nid' v'
  refine ⟨rfl, rfl, rfl, ?_, processDigramsRev_cons⟩
  simp [rewriteScan]

/-- C5 witness: the equations at concrete inputs, and one concrete
promotion of the digram `(0, 1)`. -/
theorem rewrite_scan_spec_witness :
    rewriteScan (0, 1) 7 [] = [] ∧
    rewriteScan (0, 1) 7 [0] = [0] ∧
    rewriteScan (0, 1) 7 (0 :: 1 :: [0, 1]) =
      (if ((0 : TknId), (1 : TknId)) = ((0 : TknId), (1 : TknId))
       then 7 :: rewriteScan (0, 1) 7 [0, 1]
       else 0 :: rewriteScan (0, 1) 7 (1 :: [0, 1])) ∧
    rewriteScan (3, 3) 7 [3, 3, 3] = [7, 3] ∧
    processDigramsRev vocabAB [0, 1] 0 (((0, 1), 1) :: []) =
      processDigramsRev vocabABC (rewriteScan (0, 1) 2 [0, 1]) 1 [] := by
  have h := rewrite_scan_spec (0, 1) 7 0 1 3 [0, 1] vocabAB [0, 1] 0 ((0, 1), 1) [] 2 vocabABC
  exact ⟨h.1, h.2.1, h.2.2.1, h.2.2.2.1, h.2.2.2.2 (by decide)⟩

/-- C6: the register contract, for every vocabulary built by a sequence of
`register` (= `push`) calls from the empty vocabulary: pushing a
structurally identical token twice returns the same id both times and the
size does not grow on the second call; a fresh token is assigned id equal
to the current size (and the size increments); the registered ids form the
dense range `0..size` (no gaps); and distinct tokens never share an id (no
repeats).  `push` is total, so register has no failure mode. -/
theorem register_contract :
    ∀ (ts : List Token) (t : Token),
      ((push (push (vocabOf ts) t).2 t).1 = (push (vocabOf ts) t).1 ∧
        (push (push (vocabOf ts) t).2 t).2.size = (push (vocabOf ts) t).2.size) ∧
      (lookupA (vocabOf ts).ids t = none →
        (push (vocabOf ts) t).1 = (vocabOf ts).size ∧
        (push (vocabOf ts) t).2.size = (vocabOf ts).size + 1) ∧
      (∀ id : TknId, (lookupA (vocabOf ts).tkns id).isSome ↔ id < (vocabOf ts).size) ∧
      (∀ (t1 t2 : Token) (id : TknId),
        lookupA (vocabOf ts).ids t1 = some id → lookupA (vocabOf ts).ids t2 = some id →
          t1 = t2) := by
  intro ts t
  exact ⟨push_push_same _ t, push_fresh _ t, RegInv_dense (vocabOf_RegInv ts),
    RegInv_inj (vocabOf_RegInv ts)⟩

/-- C6 witness: the contract at the vocabulary holding one token. -/
theorem register_contract_witness :
    (push (push (vocabOf [Token.Unit 'a']) (Token.Unit 'b')).2 (Token.Unit 'b')).1 =
      (push (vocabOf [Token.Unit 'a']) (Token.Unit 'b')).1 ∧
    (push (vocabOf [Token.Unit 'a']) (Token.Unit 'b')).1 = (vocabOf [Token.Unit 'a']).size ∧
    ((lookupA (vocabOf [Token.Unit 'a']).tkns 0).isSome ↔
      (0 : TknId) < (vocabOf [Token.Unit 'a']).size) := by
  have h := register_contract [Token.Unit 'a'] (Token.Unit 'b')
  exact ⟨h.1.1, (h.2.1 (by decide)).1, h.2.2.1 0⟩

/-- C7: strict/lenient asymmetry: single-id expansion of an unregistered
id fails with the UnknownSymbol condition (the Rust panic), while bulk
`decode` on a well-formed cache-less vocabulary never fails: it appends,
in sequence order, the cached text of every registered id and appends
nothing for unregistered ids (silent skip, no placeholder). -/
theorem strict_lenient_asymmetry :
    (∀ (v : Vocabulary) (id : TknId) (fuel : Nat),
      lookupA v.tkns id = none →
      decode_single v (fuel + 1) id = .error DecodeErr.unknownSymbol) ∧
    (∀ (v : Vocabulary) (ids : List TknId),
      WF v → v.id_to_string = none →
      ∃ v', decode v v.size ids = .ok (v', specSkipOutput v ids)) := by
  constructor
  · intro v id fuel h
    exact decode_single_succ_none h
  · intro v ids hwf hnone
    obtain ⟨cache, hb, hp1, hp2, hp3⟩ := buildCache_WF hwf
    have hout : ∀ (l : List TknId), cacheOutput cache l = specSkipOutput v l := by
      intro l
      induction l with
      | nil => rfl
      | cons id rest ihl =>
          cases hreg : lookupA v.tkns id with
          | some t =>
              obtain ⟨s', hs'⟩ := Option.isSome_iff_exists.mp (hp2 id (by rw [hreg]; rfl))
              have hdec := hp1 id s' hs'
              simp only [cacheOutput, specSkipOutput, hs', hdec]
              rw [ihl]
          | none =>
              have hcnone := hp3 id hreg
              obtain ⟨e, he⟩ := decode_single_unreg hreg v.size
              simp only [cacheOutput, specSkipOutput, hcnone, he]
              rw [ihl]
    refine ⟨{ v with id_to_string := some cache }, ?_⟩
    rw [decode_uncached hnone hb ids, hout ids]

/-- C7 witness: in the three-token vocabulary, `decode_single` fails on
the unregistered id 99 while `decode` on `[0, 99, 1]` succeeds, skipping
99. -/
theorem strict_lenient_asymmetry_witness :
    decode_single vocabABC (0 + 1) 99 = .error DecodeErr.unknownSymbol ∧
    ∃ v', decode vocabABC vocabABC.size [0, 99, 1] =
      .ok (v', specSkipOutput vocabABC [0, 99, 1]) := by
  have h := strict_lenient_asymmetry
  exact ⟨h.1 vocabABC 99 0 (by decide), h.2 vocabABC [0, 99, 1] (by decide) (by decide)⟩

/-- C8: bounded selection: for every count mapping, `n` and cutoff, the
selection returns at most `n` entries, every returned count strictly
exceeds the cutoff, and the returned list is sorted in descending order of
count. -/
theorem bounded_selection :
    ∀ (counts : List (TknDiagram × Nat)) (n mn : Nat),
      (top_n_digrams counts n mn).length ≤ n ∧
      (∀ p ∈ top_n_digrams counts n mn, mn < p.2) ∧
      (top_n_digrams counts n mn).Pairwise (fun p q => q.2 ≤ p.2) := by
  intro counts n mn
  exact ⟨top_n_digrams_length counts n mn,
    fun p hp => (mem_top_n_digrams hp).2,
    top_n_digrams_sorted counts n mn⟩

/-- C8 witness: the selection properties at a concrete count table. -/
theorem bounded_selection_witness :
    (top_n_digrams [((0, 1), 5), ((1, 2), 3), ((2, 3), 0)] 2 0).length ≤ 2 ∧
    0 < (((0, 1), 5) : TknDiagram × Nat).2 ∧
    (top_n_digrams [((0, 1), 5), ((1, 2), 3), ((2, 3), 0)] 2 0).Pairwise
      (fun p q => q.2 ≤ p.2) := by
  have h := bounded_selection [((0, 1), 5), ((1, 2), 3), ((2, 3), 0)] 2 0
  exact ⟨h.1, h.2.1 ((0, 1), 5) (by decide), h.2.2⟩

/-- C9: decode-cache staleness: once the cache is present, `push` and
`try_compose` (`new_id`) leave it unchanged; a subsequent `decode` call
appends nothing for an id absent from that cache (and returns the
vocabulary unchanged), even though a registered id would be expanded by
`decode_single` (here for a leaf token). -/
theorem decode_cache_staleness :
    ∀ (v : Vocabulary) (cache : List (TknId × Str)) (t : Token) (d : TknDiagram)
      (fuel : Nat) (id : TknId) (c : Char),
      v.id_to_string = some cache →
      ((push v t).2.id_to_string = some cache) ∧
      (∀ nid v', new_id v d = some (nid, v') → v'.id_to_string = some cache) ∧
      (lookupA cache id = none → decode v fuel [id] = .ok (v, [])) ∧
      (lookupA v.tkns id = some (Token.Unit c) →
        decode_single v (fuel + 1) id = .ok [c]) := by
  intro v cache t d fuel id c hc
  refine ⟨?_, ?_, ?_, ?_⟩
  · rw [push_id_to_string]
    exact hc
  · intro nid v' h
    obtain ⟨t1, t2, h1, h2, hpush⟩ := new_id_inv h
    have hm := push_id_to_string v (Token.Composition d.1 d.2)
    rw [hpush] at hm
    rw [hm]
    exact hc
  · intro hnone
    rw [decode_cached hc fuel [id]]
    simp [cacheOutput, hnone]
  · exact fun h => decode_single_succ_unit h

/-- C9 witness: the stale-cache vocabulary: its cache (built when only id
0 existed) survives a push, `decode` of the registered id 1 appends
nothing, yet `decode_single` expands id 1. -/
theorem decode_cache_staleness_witness :
    (push vocabCached (Token.Unit 'z')).2.id_to_string = some [(0, ['a'])] ∧
    decode vocabCached 0 [1] = .ok (vocabCached, []) ∧
    decode_single vocabCached (0 + 1) 1 = .ok ['b'] := by
  have h := decode_cache_staleness vocabCached [(0, ['a'])] (Token.Unit 'z') (0, 1) 0 1 'b' rfl
  exact ⟨h.1, h.2.2.1 (by decide), h.2.2.2 (by decide)⟩

/-- C10: compose never fails during learn: for every starting vocabulary,
input text and parameter values, `learn` returns a result — every digram
handed to `new_id` (`try_compose`) by the loop has both operand ids
registered at that moment, so the `None`/`unwrap` panic branch is
unreachable and `learn` does not abort. -/
theorem learn_never_panics :
    ∀ (v : Vocabulary) (data : Str) (m r c : Nat), (learn v data m r c).isSome := by
  intro v data m r c
  obtain ⟨v', t', c', heq, hca⟩ := learn_total v data m r c
  rw [heq]
  rfl

end Claims

end BPE
